import Mathlib

/-!
Verification of the ferrocore lazy-sequence pipeline (`src/iter/index.ts`)
and the `Array.prototype.sum` / `Array.prototype.product` extensions
(`src/array.ts`).

A JavaScript generator is modelled as an explicit state together with a
step function returning `Option α × state`; `none` is the `done` signal.
The base generator built by `Iter.from(list)` is a `Src`: the list of
elements not yet pulled plus a `closed` flag.  The flag records that a
`for...of` loop `break`ed over the generator, which per the iteration
protocol invokes `generator.return()` and finishes it.
-/

namespace Ferrocore

variable {α β γ : Type}

/-- State of the base generator made by `Iter.from(iterable)`
(`src/iter/index.ts` lines 18-24): the elements not yet pulled, and
whether the generator was closed by an abrupt `for...of` exit. -/
@[ext]
structure Src (α : Type) where
  rem : List α
  closed : Bool
deriving DecidableEq

/-- Models `generator.next()` on the base generator (`Iter.next`,
`src/iter/index.ts` lines 30-32): a closed or exhausted generator reports
`done` and keeps its state; otherwise the head element is pulled. -/
def Src.next (s : Src α) : Option α × Src α :=
  if s.closed then (none, s)
  else
    match s.rem with
    | [] => (none, s)
    | x :: xs => (some x, ⟨xs, false⟩)

/-- Models `generator.return()`: finishes the generator (invoked by `for...of`
when the loop body `break`s). -/
def Src.close (s : Src α) : Src α :=
  ⟨s.rem, true⟩

/-- Models `collect()` (`src/iter/index.ts` lines 88-90): `Array.from` pulls
until `done`, returning the yielded elements; the source is left spent. -/
def Src.collect (s : Src α) : List α × Src α :=
  if s.closed then ([], s) else (s.rem, ⟨[], false⟩)

/-- Generator state of `take(n)` (`src/iter/index.ts` lines 140-154):
the upstream source, the counter `i`, and whether the generator body has
finished. -/
@[ext]
structure TakeSt (α : Type) where
  src : Src α
  i : Nat
  fin : Bool

/-- One `next()` on the `take(n)` generator.  The `for...of` loop pulls
an element from upstream first, then checks `i >= n`: on success the
pulled element is discarded, the loop `break`s (closing the upstream via
`generator.return()`) and the stage is done. -/
def takeNext (n : Int) (st : TakeSt α) : Option α × TakeSt α :=
  if st.fin then (none, st)
  else
    match st.src.next with
    | (none, s) => (none, ⟨s, st.i, true⟩)
    | (some x, s) =>
      if (st.i : Int) ≥ n then (none, ⟨s.close, st.i, true⟩)
      else (some x, ⟨s, st.i + 1, false⟩)

/-- The `for...of` body of `skip(n)` (`src/iter/index.ts` lines 161-175)
between two yields: pull; while `i < n` increment `i` and pull again;
yield the first element reached with `i ≥ n`.  Returns the yielded
element (`none` on upstream exhaustion), the counter, and the remaining
upstream elements. -/
def skipLoopAux (n : Int) : Nat → List α → Option α × Nat × List α
  | i, [] => (none, i, [])
  | i, x :: xs => if (i : Int) < n then skipLoopAux n (i + 1) xs else (some x, i, xs)

/-- Generator state of `skip(n)`. -/
@[ext]
structure SkipSt (α : Type) where
  src : Src α
  i : Nat
  fin : Bool

/-- One `next()` on the `skip(n)` generator. -/
def skipNext (n : Int) (st : SkipSt α) : Option α × SkipSt α :=
  if st.fin then (none, st)
  else if st.src.closed then (none, ⟨st.src, st.i, true⟩)
  else
    match skipLoopAux n st.i st.src.rem with
    | (none, j, r) => (none, ⟨⟨r, false⟩, j, true⟩)
    | (some x, j, r) => (some x, ⟨⟨r, false⟩, j, false⟩)

/-- Generator state of `zip(other)` (`src/iter/index.ts` lines 214-228). -/
@[ext]
structure ZipSt (α β : Type) where
  sa : Src α
  sb : Src β
  fin : Bool

/-- One `next()` on the `zip` generator: `self.next()` and
`other.next()` are both called, then `if (a.done || b.done) break`.
The `break` only ends `zip`'s own body (the upstreams are pulled with
explicit `next()` calls, so no `generator.return()` is invoked on
them). -/
def zipNext (st : ZipSt α β) : Option (α × β) × ZipSt α β :=
  if st.fin then (none, st)
  else
    match st.sa.next, st.sb.next with
    | (some a, sa), (some b, sb) => (some (a, b), ⟨sa, sb, false⟩)
    | (_, sa), (_, sb) => (none, ⟨sa, sb, true⟩)

/-- Pull repeatedly (at most `fuel` times) until `done`, collecting the
yielded elements; models a draining consumer such as `collect()`. -/
def drain {σ : Type} (step : σ → Option α × σ) : Nat → σ → List α × σ
  | 0, s => ([], s)
  | fuel + 1, s =>
    match step s with
    | (none, t) => ([], t)
    | (some x, t) =>
      let r := drain step fuel t
      (x :: r.1, r.2)

/-- Models `from(l).take(n).collect()` together with the final stage state.
`l.length + 1` pulls always suffice to reach `done`. -/
def takeDrain (n : Int) (l : List α) : List α × TakeSt α :=
  drain (takeNext n) (l.length + 1) ⟨⟨l, false⟩, 0, false⟩

/-- Models `from(l).skip(n).collect()` together with the final stage state. -/
def skipDrain (n : Int) (l : List α) : List α × SkipSt α :=
  drain (skipNext n) (l.length + 1) ⟨⟨l, false⟩, 0, false⟩

/-- Models `from(a).zip(from(b)).collect()` together with the final stage
state. -/
def zipDrain (a : List α) (b : List β) : List (α × β) × ZipSt α β :=
  drain zipNext (a.length + b.length + 1) ⟨⟨a, false⟩, ⟨b, false⟩, false⟩

/-- Models `fold(initialValue, fn)` (`src/iter/index.ts` lines 98-104): the
`for...of` accumulation over the elements of a fresh source. -/
def foldI (init : γ) (f : γ → α → γ) : List α → γ
  | [] => init
  | x :: xs => foldI (f init x) f xs

/-- Models `find(fn)` (`src/iter/index.ts` lines 111-118). -/
def findI (p : α → Bool) : List α → Option α
  | [] => none
  | x :: xs => if p x then some x else findI p xs

/-- Models `all(fn)` (`src/iter/index.ts` lines 235-242). -/
def allI (p : α → Bool) : List α → Bool
  | [] => true
  | x :: xs => if !p x then false else allI p xs

/-- Models `any(fn)` (`src/iter/index.ts` lines 249-256). -/
def anyI (p : α → Bool) : List α → Bool
  | [] => false
  | x :: xs => if p x then true else anyI p xs

/-- Models `count()` (`src/iter/index.ts` lines 262-264): `this.collect().length`. -/
def countI (l : List α) : Nat :=
  ((⟨l, false⟩ : Src α).collect).1.length

/-- The loop of `last()` (`src/iter/index.ts` lines 270-276): overwrite
the running `last` with each element. -/
def lastLoop (acc : Option α) : List α → Option α
  | [] => acc
  | x :: xs => lastLoop (some x) xs

/-- Models `last()` on a fresh source. -/
def lastI (l : List α) : Option α :=
  lastLoop none l

/-- Models `nth(n)` (`src/iter/index.ts` lines 283-285):
`this.skip(n).next().value`. -/
def nthI (n : Int) (l : List α) : Option α :=
  (skipNext n ⟨⟨l, false⟩, 0, false⟩).1

/-- The loop of `position(fn)` (`src/iter/index.ts` lines 318-327). -/
def positionLoop (p : α → Bool) : Nat → List α → Option Nat
  | _, [] => none
  | i, x :: xs => if p x then some i else positionLoop p (i + 1) xs

/-- Models `position(fn)` on a fresh source. -/
def positionI (p : α → Bool) (l : List α) : Option Nat :=
  positionLoop p 0 l

/-- The loop of `max()` (`src/iter/index.ts` lines 333-343): `maxVal`
starts absent, the first element installs it, and a later element
replaces it only when `item > maxVal` (strict).  The comparison used by
the language is passed in as `gt`. -/
def maxLoop (gt : α → α → Bool) : Option α → List α → Option α
  | acc, [] => acc
  | none, x :: xs => maxLoop gt (some x) xs
  | some m, x :: xs =>
    if gt x m then maxLoop gt (some x) xs else maxLoop gt (some m) xs

/-- Models `max()` on a fresh source. -/
def maxI (gt : α → α → Bool) (l : List α) : Option α :=
  maxLoop gt none l

/-- The loop of `min()` (`src/iter/index.ts` lines 349-359), replacing
only when `item < minVal` (strict). -/
def minLoop (lt : α → α → Bool) : Option α → List α → Option α
  | acc, [] => acc
  | none, x :: xs => minLoop lt (some x) xs
  | some m, x :: xs =>
    if lt x m then minLoop lt (some x) xs else minLoop lt (some m) xs

/-- Models `min()` on a fresh source. -/
def minI (lt : α → α → Bool) (l : List α) : Option α :=
  minLoop lt none l

/-- Models `sum()` (`src/iter/index.ts` lines 366-368): `fold(0, +)`. -/
def sumI (l : List Int) : Int :=
  foldI 0 (fun acc item => acc + item) l

/-- Models `product()` (`src/iter/index.ts` lines 375-377): `fold(1, *)`. -/
def productI (l : List Int) : Int :=
  foldI 1 (fun acc item => acc * item) l

/-- JavaScript `>` on values whose `valueOf` is the first component;
the second component is an identity tag only, invisible to the
comparison. -/
def gtFst (x y : Int × Nat) : Bool :=
  decide (y.1 < x.1)

/-- JavaScript `<` on values whose `valueOf` is the first component. -/
def ltFst (x y : Int × Nat) : Bool :=
  decide (x.1 < y.1)

/-! ### The `Array.prototype.sum` / `Array.prototype.product` extensions -/

/-- A JavaScript array element as seen by `Array.prototype.sum` /
`product` called with no key (`src/array.ts`): either a number or a
non-number primitive (modelled as a string, for which `===` is
value equality, as for all primitives). -/
inductive JSVal where
  | num (v : Int)
  | str (s : String)
deriving DecidableEq

/-- JavaScript `typeof`. -/
def jsTypeof : JSVal → String
  | .num _ => "number"
  | .str _ => "string"

/-- The `isNumber` type guard (`src/array.ts`). -/
def isNumber : JSVal → Bool
  | .num _ => true
  | .str _ => false

/-- Loop of `Array.prototype.indexOf`: index of the first strictly-equal
occurrence, `-1` when absent. -/
def jsIndexOfAux (v : JSVal) : Nat → List JSVal → Int
  | _, [] => -1
  | i, x :: xs => if x = v then (i : Int) else jsIndexOfAux v (i + 1) xs

/-- Models `this.indexOf(item)`. -/
def jsIndexOf (l : List JSVal) (v : JSVal) : Int :=
  jsIndexOfAux v 0 l

/-- The `TypeError` message thrown by `Array.prototype.sum` with no key
(`src/array.ts` lines 89-96). -/
def sumMsg (t : String) (i : Int) : String :=
  "Array.sum() requires all elements to be numbers when no key is provided. Got "
    ++ t ++ " at index " ++ toString i

/-- The `TypeError` message thrown by `Array.prototype.product` with no
key (`src/array.ts` lines 123-130). -/
def productMsg (t : String) (i : Int) : String :=
  "Array.product() requires all elements to be numbers when no key is provided. Got "
    ++ t ++ " at index " ++ toString i

/-- The `reduce` body of `Array.prototype.sum` with no key: add each
number to the accumulator; throw (`Except.error`) at the first
non-number, with the message built from `this` (`orig`). -/
def sumGo (orig : List JSVal) (acc : Int) : List JSVal → Except String Int
  | [] => .ok acc
  | item :: rest =>
    match item with
    | .num v => sumGo orig (acc + v) rest
    | .str s => .error (sumMsg (jsTypeof (.str s)) (jsIndexOf orig (.str s)))

/-- Models `Array.prototype.sum` with no key (`src/array.ts` lines 79-108):
`0` on the empty array, otherwise `reduce` from `0`. -/
def jsSum (arr : List JSVal) : Except String Int :=
  if arr.length = 0 then .ok 0 else sumGo arr 0 arr

/-- The `reduce` body of `Array.prototype.product` with no key. -/
def productGo (orig : List JSVal) (acc : Int) : List JSVal → Except String Int
  | [] => .ok acc
  | item :: rest =>
    match item with
    | .num v => productGo orig (acc * v) rest
    | .str s => .error (productMsg (jsTypeof (.str s)) (jsIndexOf orig (.str s)))

/-- Models `Array.prototype.product` with no key (`src/array.ts` lines
113-142): `1` on the empty array, otherwise `reduce` from `1`. -/
def jsProduct (arr : List JSVal) : Except String Int :=
  if arr.length = 0 then .ok 1 else productGo arr 1 arr

/-! ### Characterization of draining `take(n)` -/

lemma takeDrain_go (n : Int) :
    ∀ (l : List α) (i fuel : Nat), l.length < fuel →
    drain (takeNext n) fuel ⟨⟨l, false⟩, i, false⟩ =
      (l.take (n - i).toNat,
       ⟨⟨l.drop ((n - i).toNat + 1), decide ((n - i).toNat < l.length)⟩,
        i + min (n - i).toNat l.length, true⟩) := by
  intro l
  induction l with
  | nil =>
    intro i fuel hf
    obtain ⟨f, rfl⟩ : ∃ f, fuel = f + 1 := ⟨fuel - 1, by omega⟩
    simp [drain, takeNext, Src.next]
  | cons x xs ih =>
    intro i fuel hf
    obtain ⟨f, rfl⟩ : ∃ f, fuel = f + 1 := ⟨fuel - 1, by omega⟩
    have hf' : xs.length < f := by
      simp only [List.length_cons] at hf; omega
    by_cases hin : (i : Int) ≥ n
    · have hd : (n - i).toNat = 0 := by omega
      simp [drain, takeNext, Src.next, hin, hd, Src.close]
    · have hd : (n - i).toNat = (n - ((i : Nat) + 1 : Nat)).toNat + 1 := by
        push_cast; omega
      have hstep :
          takeNext n (⟨⟨x :: xs, false⟩, i, false⟩ : TakeSt α) =
            (some x, ⟨⟨xs, false⟩, i + 1, false⟩) := by
        simp [takeNext, Src.next, hin]
      simp only [drain, hstep, ih (i + 1) f hf']
      rw [hd]
      simp only [Prod.mk.injEq, TakeSt.mk.injEq, Src.mk.injEq, List.take_succ_cons,
        List.drop_succ_cons, List.length_cons, decide_eq_decide, true_and, and_true]
      omega

lemma takeDrain_eq (n : Int) (l : List α) :
    takeDrain n l =
      (l.take n.toNat,
       ⟨⟨l.drop (n.toNat + 1), decide (n.toNat < l.length)⟩,
        min n.toNat l.length, true⟩) := by
  have h := takeDrain_go n l 0 (l.length + 1) (by omega)
  simpa [takeDrain] using h

/-! ### Characterization of draining `skip(n)` -/

lemma skipLoopAux_eq (n : Int) :
    ∀ (l : List α) (i : Nat), ∃ j : Nat,
      skipLoopAux n i l =
        ((l.drop (n - i).toNat).head?, j, (l.drop (n - i).toNat).tail) ∧
      (n ≤ (j : Int) ∨ l.drop (n - i).toNat = []) := by
  intro l
  induction l with
  | nil =>
    intro i
    exact ⟨i, by simp [skipLoopAux], Or.inr (by simp)⟩
  | cons x xs ih =>
    intro i
    by_cases hin : (i : Int) < n
    · obtain ⟨j, hj, hp⟩ := ih (i + 1)
      have hd : (n - i).toNat = (n - ((i : Nat) + 1 : Nat)).toNat + 1 := by
        push_cast; omega
      refine ⟨j, ?_, ?_⟩
      · rw [skipLoopAux, if_pos hin, hj, hd, List.drop_succ_cons]
      · rw [hd, List.drop_succ_cons]; exact hp
    · have hd : (n - i).toNat = 0 := by omega
      exact ⟨i, by rw [skipLoopAux, if_neg hin, hd]; simp, Or.inl (by omega)⟩

lemma skipDrain_pass (n : Int) :
    ∀ (l : List α) (i fuel : Nat), l.length < fuel → n ≤ (i : Int) →
    (drain (skipNext n) fuel ⟨⟨l, false⟩, i, false⟩).1 = l := by
  intro l
  induction l with
  | nil =>
    intro i fuel hf _
    obtain ⟨f, rfl⟩ : ∃ f, fuel = f + 1 := ⟨fuel - 1, by omega⟩
    simp [drain, skipNext, skipLoopAux]
  | cons x xs ih =>
    intro i fuel hf hi
    obtain ⟨f, rfl⟩ : ∃ f, fuel = f + 1 := ⟨fuel - 1, by omega⟩
    have hf' : xs.length < f := by
      simp only [List.length_cons] at hf; omega
    have hstep :
        skipNext n (⟨⟨x :: xs, false⟩, i, false⟩ : SkipSt α) =
          (some x, ⟨⟨xs, false⟩, i, false⟩) := by
      rw [skipNext]
      simp [skipLoopAux, not_lt.mpr hi]
    simp only [drain, hstep, ih i f hf' hi]

lemma skipDrain_fst (n : Int) (l : List α) :
    (skipDrain n l).1 = l.drop n.toNat := by
  obtain ⟨j, hj, hp⟩ := skipLoopAux_eq n l 0
  simp only [Nat.cast_zero, sub_zero] at hj hp
  cases hdrop : l.drop n.toNat with
  | nil =>
    rw [hdrop] at hj
    simp only [skipDrain, drain, skipNext, List.head?_nil]
    simp [hj]
  | cons y ys =>
    rw [hdrop] at hj hp
    have hj' : n ≤ (j : Int) := by
      rcases hp with h | h
      · exact h
      · exact absurd h (by simp)
    have hys : ys.length < l.length := by
      have hlen := congrArg List.length hdrop
      simp only [List.length_drop, List.length_cons] at hlen
      omega
    have hstep :
        skipNext n (⟨⟨l, false⟩, 0, false⟩ : SkipSt α) =
          (some y, ⟨⟨ys, false⟩, j, false⟩) := by
      rw [skipNext]
      simp [hj]
    simp only [skipDrain, drain, hstep]
    rw [skipDrain_pass n ys j l.length hys hj']

/-! ### Characterization of draining `zip` -/

lemma zipDrain_go :
    ∀ (a : List α) (b : List β) (fuel : Nat), min a.length b.length < fuel →
    drain zipNext fuel ⟨⟨a, false⟩, ⟨b, false⟩, false⟩ =
      (a.zip b,
       ⟨⟨a.drop (min a.length b.length + 1), false⟩,
        ⟨b.drop (min a.length b.length + 1), false⟩, true⟩) := by
  intro a
  induction a with
  | nil =>
    intro b fuel hf
    obtain ⟨f, rfl⟩ : ∃ f, fuel = f + 1 := ⟨fuel - 1, by omega⟩
    cases b with
    | nil => simp [drain, zipNext, Src.next]
    | cons y ys => simp [drain, zipNext, Src.next]
  | cons x xs ih =>
    intro b fuel hf
    obtain ⟨f, rfl⟩ : ∃ f, fuel = f + 1 := ⟨fuel - 1, by omega⟩
    cases b with
    | nil => simp [drain, zipNext, Src.next]
    | cons y ys =>
      have hf' : min xs.length ys.length < f := by
        simp only [List.length_cons] at hf; omega
      have hstep :
          zipNext (⟨⟨x :: xs, false⟩, ⟨y :: ys, false⟩, false⟩ : ZipSt α β) =
            (some (x, y), ⟨⟨xs, false⟩, ⟨ys, false⟩, false⟩) := by
        simp [zipNext, Src.next]
      have hmin : min ((x :: xs).length) ((y :: ys).length) =
          min xs.length ys.length + 1 := by
        simp only [List.length_cons]; omega
      simp only [drain, hstep, ih ys f hf', hmin]
      simp [List.drop_succ_cons]

lemma zipDrain_eq (a : List α) (b : List β) :
    zipDrain a b =
      (a.zip b,
       ⟨⟨a.drop (min a.length b.length + 1), false⟩,
        ⟨b.drop (min a.length b.length + 1), false⟩, true⟩) :=
  zipDrain_go a b (a.length + b.length + 1) (by omega)

/-! ### Claim theorems: take / skip / zip -/

/-- Claim C1 (corrected), counterexample to the claim as stated: draining
`from([10,20,30]).take(1)` leaves only `[30]` unconsumed upstream, i.e. two
elements were pulled from the source, though the claim allows at most
`n = 1`. -/
theorem take_consumes_beyond_n_cex :
    ((takeDrain (1 : Int) ([10, 20, 30] : List Int)).2.src.rem.length = 1) ∧
    ¬((3 : Nat) - 1 ≤ 1) := by
  constructor
  · rfl
  · decide

/-- Claim C1 (amended): draining `s.take(n)` yields the first
`max(n,0)` elements, but consumes `min(|s|, max(n,0) + 1)` elements from
`s`: the element at index `max(n,0)` is pulled and discarded by the
terminating check `i >= n`, at which point the upstream generator is
closed (`closed = true` exactly when the discarding pull happened, i.e.
when `max(n,0) < |s|`).  Elements beyond index `max(n,0)` are never
pulled. -/
theorem take_drain_consumption (n : Int) (l : List α) :
    (takeDrain n l).1 = l.take n.toNat ∧
    (takeDrain n l).2.src.rem = l.drop (n.toNat + 1) ∧
    (takeDrain n l).2.src.closed = decide (n.toNat < l.length) := by
  rw [takeDrain_eq]
  exact ⟨rfl, rfl, rfl⟩

/-- Claim C6: for every integer `n` (negative included),
`s.take(n).collect() ++ s.skip(n).collect()`, evaluated on two fresh
copies of the source, reconstructs the source list. -/
theorem take_skip_reconstruct (n : Int) (l : List α) :
    (takeDrain n l).1 ++ (skipDrain n l).1 = l := by
  rw [skipDrain_fst, takeDrain_eq]
  exact List.take_append_drop n.toNat l

/-- Claim C10: `skip(n)` with `n ≤ 0` drops nothing: the collected
output is the whole source list. -/
theorem skip_nonpos_identity (n : Int) (l : List α) (h : n ≤ 0) :
    (skipDrain n l).1 = l := by
  rw [skipDrain_fst]
  have hz : n.toNat = 0 := by omega
  rw [hz, List.drop_zero]

/-- Witness for `skip_nonpos_identity` at `n = -2`. -/
theorem skip_nonpos_identity_witness :
    (skipDrain (-2 : Int) ([1, 2, 3] : List Int)).1 = [1, 2, 3] :=
  skip_nonpos_identity (-2) [1, 2, 3] (by decide)

/-- Claim C4 (corrected), counterexample to the claim as stated:
`nth(-1)` on `[5]` returns the element `5`, not the `undefined`
sentinel the claim requires for every `n < 0`. -/
theorem nth_negative_cex :
    nthI (-1 : Int) ([5] : List Int) = some 5 ∧ some (5 : Int) ≠ none := by
  constructor
  · rfl
  · decide

/-- Claim C4 (amended): `nth(n)` returns the element at index
`max(n,0)`: for `0 ≤ n < |s|` the element at index `n`, for `n ≥ |s|`
the none sentinel, and for `n < 0` it behaves like `nth(0)` (first
element, or the none sentinel only when the sequence is empty). -/
theorem nth_eq_index_toNat (n : Int) (l : List α) :
    nthI n l = l[n.toNat]? := by
  obtain ⟨j, hj, -⟩ := skipLoopAux_eq n l 0
  simp only [Nat.cast_zero, sub_zero] at hj
  rw [nthI, skipNext]
  simp only [hj, List.head?_drop]
  cases l[n.toNat]? <;> rfl

/-- Claim C5: `a.zip(b).collect()` has length `min(|a|,|b|)` and its
`i`-th element pairs the `i`-th elements of `a` and `b`. -/
theorem zip_collect_spec (a : List α) (b : List β) :
    (zipDrain a b).1.length = min a.length b.length ∧
    ∀ i : Nat, (zipDrain a b).1[i]? = Option.map₂ Prod.mk a[i]? b[i]? := by
  rw [zipDrain_eq]
  refine ⟨List.length_zip a b, fun i => ?_⟩
  show (a.zipWith Prod.mk b)[i]? = Option.map₂ Prod.mk a[i]? b[i]?
  rw [List.getElem?_zipWith]
  cases a[i]? <;> cases b[i]? <;> rfl

/-- Claim C9: when `|a| ≠ |b|`, draining `a.zip(b)` consumes
`min(|a|,|b|) + 1` elements from the longer side: the final lockstep
step pulls one element of the longer side alongside the shorter side's
exhaustion signal and discards it.  The longer side's generator is not
closed, so iterating it afterward resumes at index `min(|a|,|b|) + 1`. -/
theorem zip_overconsumes_longer (a : List α) (b : List β)
    (_h : a.length ≠ b.length) :
    (a.length < b.length →
      (zipDrain a b).2.sb.rem = b.drop (a.length + 1) ∧
      b.length - (zipDrain a b).2.sb.rem.length = a.length + 1 ∧
      (zipDrain a b).2.sb.closed = false) ∧
    (b.length < a.length →
      (zipDrain a b).2.sa.rem = a.drop (b.length + 1) ∧
      a.length - (zipDrain a b).2.sa.rem.length = b.length + 1 ∧
      (zipDrain a b).2.sa.closed = false) := by
  rw [zipDrain_eq]
  constructor
  · intro hab
    have hmin : min a.length b.length = a.length := by omega
    refine ⟨by rw [hmin], ?_, rfl⟩
    rw [hmin]
    simp only [List.length_drop]
    omega
  · intro hba
    have hmin : min a.length b.length = b.length := by omega
    refine ⟨by rw [hmin], ?_, rfl⟩
    rw [hmin]
    simp only [List.length_drop]
    omega

/-- Witness for `zip_overconsumes_longer` with `a = [1]`,
`b = [10,20,30]`: after draining the zip, the longer side has `[30]`
left (its elements at indices 0 and 1 were consumed) and is not
closed. -/
theorem zip_overconsumes_longer_witness :
    (zipDrain ([1] : List Int) ([10, 20, 30] : List Int)).2.sb.rem =
      ([10, 20, 30] : List Int).drop (1 + 1) ∧
    (3 : Nat) - (zipDrain ([1] : List Int) ([10, 20, 30] : List Int)).2.sb.rem.length = 1 + 1 ∧
    (zipDrain ([1] : List Int) ([10, 20, 30] : List Int)).2.sb.closed = false := by
  have h := (zip_overconsumes_longer ([1] : List Int) ([10, 20, 30] : List Int)
    (by decide)).1 (by decide)
  simpa using h

/-! ### Claim theorems: exhaustion monotonicity and empty-sequence behavior -/

/-- Claim C2: exhaustion is monotonic for every modelled pipeline stage
(base source, `take`, `skip`, `zip`): once `next()` returns the done
signal, the resulting state is a fixpoint, so every subsequent `next()`
also returns done; and `collect()` on a spent source returns `[]`
rather than raising an error. -/
theorem exhaustion_monotone :
    (∀ s t : Src α, s.next = (none, t) → t.next = (none, t)) ∧
    (∀ (n : Int) (s t : TakeSt α), takeNext n s = (none, t) → takeNext n t = (none, t)) ∧
    (∀ (n : Int) (s t : SkipSt α), skipNext n s = (none, t) → skipNext n t = (none, t)) ∧
    (∀ s t : ZipSt α β, zipNext s = (none, t) → zipNext t = (none, t)) ∧
    (∀ s : Src α, (Src.collect (Src.collect s).2).1 = []) := by
  refine ⟨?_, ?_, ?_, ?_, ?_⟩
  · rintro ⟨rem, c⟩ t h
    cases c with
    | true =>
      simp [Src.next] at h
      subst h
      simp [Src.next]
    | false =>
      cases rem with
      | nil =>
        simp [Src.next] at h
        subst h
        simp [Src.next]
      | cons x xs =>
        simp [Src.next] at h
  · rintro n ⟨⟨rem, c⟩, i, f⟩ t h
    cases f with
    | true =>
      simp [takeNext] at h
      subst h
      simp [takeNext]
    | false =>
      cases c with
      | true =>
        simp [takeNext, Src.next] at h
        subst h
        simp [takeNext]
      | false =>
        cases rem with
        | nil =>
          simp [takeNext, Src.next] at h
          subst h
          simp [takeNext]
        | cons x xs =>
          by_cases hin : (i : Int) ≥ n
          · simp [takeNext, Src.next, hin, Src.close] at h
            subst h
            simp [takeNext]
          · simp [takeNext, Src.next, hin] at h
  · rintro n ⟨⟨rem, c⟩, i, f⟩ t h
    cases f with
    | true =>
      simp [skipNext] at h
      subst h
      simp [skipNext]
    | false =>
      cases c with
      | true =>
        simp [skipNext] at h
        subst h
        simp [skipNext]
      | false =>
        rcases hla : skipLoopAux n i rem with ⟨o, j, r⟩
        cases o with
        | none =>
          simp [skipNext, hla] at h
          subst h
          simp [skipNext]
        | some x =>
          simp [skipNext, hla] at h
  · rintro ⟨⟨ra, ca⟩, ⟨rb, cb⟩, f⟩ t h
    cases f with
    | true =>
      simp [zipNext] at h
      subst h
      simp [zipNext]
    | false =>
      cases ca <;> cases cb <;>
        rcases ra with _ | ⟨xa, ra⟩ <;> rcases rb with _ | ⟨xb, rb⟩ <;>
        simp [zipNext, Src.next] at h <;>
        subst h <;> simp [zipNext]
  · rintro ⟨rem, c⟩
    cases c <;> simp [Src.collect]

/-- Witness for `exhaustion_monotone`: each fixpoint property applied
at a concrete already-done state, and the re-collect property at a
concrete source. -/
theorem exhaustion_monotone_witness :
    Src.next (⟨[], false⟩ : Src Nat) = (none, (⟨[], false⟩ : Src Nat)) ∧
    takeNext 2 (⟨⟨[7], false⟩, 0, true⟩ : TakeSt Nat) =
      (none, (⟨⟨[7], false⟩, 0, true⟩ : TakeSt Nat)) ∧
    skipNext 1 (⟨⟨[], false⟩, 0, true⟩ : SkipSt Nat) =
      (none, (⟨⟨[], false⟩, 0, true⟩ : SkipSt Nat)) ∧
    zipNext (⟨⟨[], false⟩, ⟨[], false⟩, true⟩ : ZipSt Nat Nat) =
      (none, (⟨⟨[], false⟩, ⟨[], false⟩, true⟩ : ZipSt Nat Nat)) ∧
    (Src.collect (Src.collect (⟨[4, 5], false⟩ : Src Nat)).2).1 = [] := by
  refine ⟨?_, ?_, ?_, ?_, ?_⟩
  · exact (exhaustion_monotone (α := Nat) (β := Nat)).1 ⟨[], false⟩ ⟨[], false⟩ rfl
  · exact (exhaustion_monotone (α := Nat) (β := Nat)).2.1 2 ⟨⟨[7], false⟩, 0, true⟩
      ⟨⟨[7], false⟩, 0, true⟩ rfl
  · exact (exhaustion_monotone (α := Nat) (β := Nat)).2.2.1 1 ⟨⟨[], false⟩, 0, true⟩
      ⟨⟨[], false⟩, 0, true⟩ rfl
  · exact (exhaustion_monotone (α := Nat) (β := Nat)).2.2.2.1 ⟨⟨[], false⟩, ⟨[], false⟩, true⟩
      ⟨⟨[], false⟩, ⟨[], false⟩, true⟩ rfl
  · exact (exhaustion_monotone (α := Nat) (β := Nat)).2.2.2.2 ⟨[4, 5], false⟩

/-- Claim C3: on the empty sequence no terminal operation raises an
error and each returns its identity or sentinel: `sum() = 0`,
`product() = 1`, `fold(init, f) = init`, `count() = 0`,
`all(p) = true`, `any(p) = false`, and `max()`, `min()`, `find(p)`,
`last()`, `nth(n)` (any integer `n`), `position(p)` return the none
sentinel. -/
theorem empty_sequence_terminals (init : γ) (f : γ → α → γ) (p : α → Bool)
    (gt lt : α → α → Bool) (n : Int) :
    sumI [] = 0 ∧ productI [] = 1 ∧
    foldI init f ([] : List α) = init ∧
    countI ([] : List α) = 0 ∧
    allI p ([] : List α) = true ∧
    anyI p ([] : List α) = false ∧
    maxI gt ([] : List α) = none ∧
    minI lt ([] : List α) = none ∧
    findI p ([] : List α) = none ∧
    lastI ([] : List α) = none ∧
    nthI n ([] : List α) = none ∧
    positionI p ([] : List α) = none :=
  ⟨rfl, rfl, rfl, rfl, rfl, rfl, rfl, rfl, rfl, rfl, rfl, rfl⟩

/-! ### Claim theorem: `Array.prototype.sum` / `product` fail fast -/

lemma jsIndexOfAux_append (v : JSVal) (rest : List JSVal) :
    ∀ (pre : List JSVal), (∀ x ∈ pre, x ≠ v) →
    ∀ i : Nat, jsIndexOfAux v i (pre ++ v :: rest) = (i : Int) + pre.length := by
  intro pre
  induction pre with
  | nil =>
    intro _ i
    simp [jsIndexOfAux]
  | cons x xs ih =>
    intro hpre i
    have hx : ¬(x = v) := hpre x (by simp)
    rw [List.cons_append, jsIndexOfAux, if_neg hx,
      ih (fun y hy => hpre y (by simp [hy])) (i + 1)]
    simp only [List.length_cons]
    push_cast
    omega

lemma jsIndexOf_first (v : JSVal) (pre rest : List JSVal)
    (hpre : ∀ x ∈ pre, isNumber x = true) (hv : isNumber v = false) :
    jsIndexOf (pre ++ v :: rest) v = (pre.length : Int) := by
  have hne : ∀ x ∈ pre, x ≠ v := by
    intro x hx heq
    have h1 := hpre x hx
    rw [heq, hv] at h1
    exact absurd h1 (by simp)
  rw [jsIndexOf, jsIndexOfAux_append v rest pre hne 0]
  simp

lemma sumGo_error (item : JSVal) (hv : isNumber item = false) :
    ∀ (pre rest orig : List JSVal) (acc : Int), (∀ x ∈ pre, isNumber x = true) →
    sumGo orig acc (pre ++ item :: rest) =
      .error (sumMsg (jsTypeof item) (jsIndexOf orig item)) := by
  intro pre
  induction pre with
  | nil =>
    intro rest orig acc _
    cases item with
    | num v => exact absurd hv (by simp [isNumber])
    | str s => rfl
  | cons x xs ih =>
    intro rest orig acc hpre
    have hx := hpre x (by simp)
    cases x with
    | num v =>
      rw [List.cons_append]
      exact ih rest orig (acc + v) fun y hy => hpre y (by simp [hy])
    | str s => exact absurd hx (by simp [isNumber])

lemma productGo_error (item : JSVal) (hv : isNumber item = false) :
    ∀ (pre rest orig : List JSVal) (acc : Int), (∀ x ∈ pre, isNumber x = true) →
    productGo orig acc (pre ++ item :: rest) =
      .error (productMsg (jsTypeof item) (jsIndexOf orig item)) := by
  intro pre
  induction pre with
  | nil =>
    intro rest orig acc _
    cases item with
    | num v => exact absurd hv (by simp [isNumber])
    | str s => rfl
  | cons x xs ih =>
    intro rest orig acc hpre
    have hx := hpre x (by simp)
    cases x with
    | num v =>
      rw [List.cons_append]
      exact ih rest orig (acc * v) fun y hy => hpre y (by simp [hy])
    | str s => exact absurd hx (by simp [isNumber])

lemma jsSum_error (pre rest : List JSVal) (item : JSVal)
    (hpre : ∀ x ∈ pre, isNumber x = true) (hv : isNumber item = false) :
    jsSum (pre ++ item :: rest) =
      .error (sumMsg (jsTypeof item) (pre.length : Int)) := by
  rw [jsSum, if_neg (by simp), sumGo_error item hv pre rest _ 0 hpre,
    jsIndexOf_first item pre rest hpre hv]

lemma jsProduct_error (pre rest : List JSVal) (item : JSVal)
    (hpre : ∀ x ∈ pre, isNumber x = true) (hv : isNumber item = false) :
    jsProduct (pre ++ item :: rest) =
      .error (productMsg (jsTypeof item) (pre.length : Int)) := by
  rw [jsProduct, if_neg (by simp), productGo_error item hv pre rest _ 1 hpre,
    jsIndexOf_first item pre rest hpre hv]

/-- Claim C7: `Array.prototype.sum()` / `product()` called with no key
return `0` resp. `1` on the empty array without error; on a non-empty
array whose first non-number element sits at index `|pre|` (every
element of `pre` before it is a number), they throw a `TypeError` whose
message names the operation (`Array.sum()` / `Array.product()`) and
that index, and the result is independent of the elements after the
offending one (fail fast: they are never processed). -/
theorem array_sum_product_spec :
    (jsSum [] = .ok 0 ∧ jsProduct [] = .ok 1) ∧
    (∀ (pre rest rest2 : List JSVal) (item : JSVal),
      (∀ x ∈ pre, isNumber x = true) → isNumber item = false →
      jsSum (pre ++ item :: rest) =
        .error (sumMsg (jsTypeof item) (pre.length : Int)) ∧
      jsSum (pre ++ item :: rest) = jsSum (pre ++ item :: rest2)) ∧
    (∀ (pre rest rest2 : List JSVal) (item : JSVal),
      (∀ x ∈ pre, isNumber x = true) → isNumber item = false →
      jsProduct (pre ++ item :: rest) =
        .error (productMsg (jsTypeof item) (pre.length : Int)) ∧
      jsProduct (pre ++ item :: rest) = jsProduct (pre ++ item :: rest2)) := by
  refine ⟨⟨rfl, rfl⟩, ?_, ?_⟩
  · intro pre rest rest2 item hpre hv
    rw [jsSum_error pre rest item hpre hv, jsSum_error pre rest2 item hpre hv]
    exact ⟨rfl, rfl⟩
  · intro pre rest rest2 item hpre hv
    rw [jsProduct_error pre rest item hpre hv, jsProduct_error pre rest2 item hpre hv]
    exact ⟨rfl, rfl⟩

/-- Witness for `array_sum_product_spec`: the array `[7, "x", 9]` fails
at index 1 with the documented messages, for both operations, and the
error is unchanged when the suffix after the offender is replaced. -/
theorem array_sum_product_spec_witness :
    jsSum [JSVal.num 7, JSVal.str "x", JSVal.num 9] =
      .error (sumMsg (jsTypeof (JSVal.str "x")) (([JSVal.num 7] : List JSVal).length : Int)) ∧
    jsSum [JSVal.num 7, JSVal.str "x", JSVal.num 9] =
      jsSum [JSVal.num 7, JSVal.str "x"] ∧
    jsProduct [JSVal.num 7, JSVal.str "x", JSVal.num 9] =
      .error (productMsg (jsTypeof (JSVal.str "x")) (([JSVal.num 7] : List JSVal).length : Int)) := by
  have hs := array_sum_product_spec.2.1 [JSVal.num 7] [JSVal.num 9] []
    (JSVal.str "x") (by decide) (by decide)
  have hp := array_sum_product_spec.2.2 [JSVal.num 7] [JSVal.num 9] []
    (JSVal.str "x") (by decide) (by decide)
  exact ⟨hs.1, hs.2, hp.1⟩

/-! ### Claim theorem: `max` / `min` keep the first occurrence -/

lemma find?_cons_pos (p : α → Bool) (a : α) (l : List α) (h : p a = true) :
    (a :: l).find? p = some a :=
  List.find?_cons_of_pos l h

lemma find?_cons_neg (p : α → Bool) (a : α) (l : List α) (h : p a = false) :
    (a :: l).find? p = l.find? p :=
  List.find?_cons_of_neg l (by simp [h])

lemma maxLoop_find? :
    ∀ (l : List (Int × Nat)) (m : Int × Nat),
    maxLoop gtFst (some m) l =
      (m :: l).find? (fun z => decide (∀ y ∈ m :: l, y.1 ≤ z.1)) := by
  intro l
  induction l with
  | nil =>
    intro m
    rw [maxLoop, find?_cons_pos _ m [] (by simp)]
  | cons x xs ih =>
    intro m
    by_cases hxm : m.1 < x.1
    · have hgt : gtFst x m = true := by simp [gtFst, hxm]
      rw [show maxLoop gtFst (some m) (x :: xs) = maxLoop gtFst (some x) xs by
        rw [maxLoop, hgt]; rfl]
      rw [ih x]
      rw [find?_cons_neg (fun z : Int × Nat => decide (∀ y ∈ m :: x :: xs, y.1 ≤ z.1))
        m (x :: xs) (by
          simp only [decide_eq_false_iff_not]
          intro hall
          exact absurd (hall x (by simp)) (by omega))]
      have hfun : (fun z : Int × Nat => decide (∀ y ∈ x :: xs, y.1 ≤ z.1)) =
          (fun z : Int × Nat => decide (∀ y ∈ m :: x :: xs, y.1 ≤ z.1)) := by
        funext z
        rw [decide_eq_decide]
        constructor
        · intro hz y hy
          have hx1 : x.1 ≤ z.1 := hz x (by simp)
          rcases List.mem_cons.mp hy with h1 | h1
          · rw [h1]; omega
          · exact hz y h1
        · intro hz y hy
          exact hz y (by simp [hy])
      rw [hfun]
    · have hle : x.1 ≤ m.1 := by omega
      have hgt : gtFst x m = false := by
        simp only [gtFst, decide_eq_false_iff_not]
        omega
      rw [show maxLoop gtFst (some m) (x :: xs) = maxLoop gtFst (some m) xs by
        rw [maxLoop, hgt]; rfl]
      rw [ih m]
      by_cases hub : ∀ y ∈ m :: xs, y.1 ≤ m.1
      · rw [find?_cons_pos (fun z : Int × Nat => decide (∀ y ∈ m :: xs, y.1 ≤ z.1))
          m xs (by
            simp only [decide_eq_true_eq]
            exact hub)]
        rw [find?_cons_pos (fun z : Int × Nat => decide (∀ y ∈ m :: x :: xs, y.1 ≤ z.1))
          m (x :: xs) (by
            simp only [decide_eq_true_eq]
            intro y hy
            rcases List.mem_cons.mp hy with h1 | h1
            · rw [h1]
            · rcases List.mem_cons.mp h1 with h3 | h3
              · rw [h3]; omega
              · exact hub y (by simp [h3]))]
      · rw [find?_cons_neg (fun z : Int × Nat => decide (∀ y ∈ m :: xs, y.1 ≤ z.1))
          m xs (by
            simp only [decide_eq_false_iff_not]
            exact hub)]
        rw [find?_cons_neg (fun z : Int × Nat => decide (∀ y ∈ m :: x :: xs, y.1 ≤ z.1))
          m (x :: xs) (by
            simp only [decide_eq_false_iff_not]
            intro hall
            refine hub fun y hy => hall y ?_
            rcases List.mem_cons.mp hy with h1 | h1
            · simp [h1]
            · simp [h1])]
        rw [find?_cons_neg (fun z : Int × Nat => decide (∀ y ∈ m :: x :: xs, y.1 ≤ z.1))
          x xs (by
            simp only [decide_eq_false_iff_not]
            intro hall
            have hmx : m.1 ≤ x.1 := hall m (by simp)
            refine hub fun y hy => ?_
            rcases List.mem_cons.mp hy with h1 | h1
            · rw [h1]
            · have := hall y (by simp [h1])
              omega)]
        have hfun : (fun z : Int × Nat => decide (∀ y ∈ m :: xs, y.1 ≤ z.1)) =
            (fun z : Int × Nat => decide (∀ y ∈ m :: x :: xs, y.1 ≤ z.1)) := by
          funext z
          rw [decide_eq_decide]
          constructor
          · intro hz y hy
            have hm1 : m.1 ≤ z.1 := hz m (by simp)
            rcases List.mem_cons.mp hy with h1 | h1
            · rw [h1]; exact hm1
            · rcases List.mem_cons.mp h1 with h3 | h3
              · rw [h3]; omega
              · exact hz y (by simp [h3])
          · intro hz y hy
            rcases List.mem_cons.mp hy with h1 | h1
            · rw [h1]
              exact hz m (by simp)
            · exact hz y (by simp [h1])
        rw [hfun]

lemma minLoop_find? :
    ∀ (l : List (Int × Nat)) (m : Int × Nat),
    minLoop ltFst (some m) l =
      (m :: l).find? (fun z => decide (∀ y ∈ m :: l, z.1 ≤ y.1)) := by
  intro l
  induction l with
  | nil =>
    intro m
    rw [minLoop, find?_cons_pos _ m [] (by simp)]
  | cons x xs ih =>
    intro m
    by_cases hxm : x.1 < m.1
    · have hlt : ltFst x m = true := by simp [ltFst, hxm]
      rw [show minLoop ltFst (some m) (x :: xs) = minLoop ltFst (some x) xs by
        rw [minLoop, hlt]; rfl]
      rw [ih x]
      rw [find?_cons_neg (fun z : Int × Nat => decide (∀ y ∈ m :: x :: xs, z.1 ≤ y.1))
        m (x :: xs) (by
          simp only [decide_eq_false_iff_not]
          intro hall
          exact absurd (hall x (by simp)) (by omega))]
      have hfun : (fun z : Int × Nat => decide (∀ y ∈ x :: xs, z.1 ≤ y.1)) =
          (fun z : Int × Nat => decide (∀ y ∈ m :: x :: xs, z.1 ≤ y.1)) := by
        funext z
        rw [decide_eq_decide]
        constructor
        · intro hz y hy
          have hx1 : z.1 ≤ x.1 := hz x (by simp)
          rcases List.mem_cons.mp hy with h1 | h1
          · rw [h1]; omega
          · exact hz y h1
        · intro hz y hy
          exact hz y (by simp [hy])
      rw [hfun]
    · have hle : m.1 ≤ x.1 := by omega
      have hlt : ltFst x m = false := by
        simp only [ltFst, decide_eq_false_iff_not]
        omega
      rw [show minLoop ltFst (some m) (x :: xs) = minLoop ltFst (some m) xs by
        rw [minLoop, hlt]; rfl]
      rw [ih m]
      by_cases hub : ∀ y ∈ m :: xs, m.1 ≤ y.1
      · rw [find?_cons_pos (fun z : Int × Nat => decide (∀ y ∈ m :: xs, z.1 ≤ y.1))
          m xs (by
            simp only [decide_eq_true_eq]
            exact hub)]
        rw [find?_cons_pos (fun z : Int × Nat => decide (∀ y ∈ m :: x :: xs, z.1 ≤ y.1))
          m (x :: xs) (by
            simp only [decide_eq_true_eq]
            intro y hy
            rcases List.mem_cons.mp hy with h1 | h1
            · rw [h1]
            · rcases List.mem_cons.mp h1 with h3 | h3
              · rw [h3]; omega
              · exact hub y (by simp [h3]))]
      · rw [find?_cons_neg (fun z : Int × Nat => decide (∀ y ∈ m :: xs, z.1 ≤ y.1))
          m xs (by
            simp only [decide_eq_false_iff_not]
            exact hub)]
        rw [find?_cons_neg (fun z : Int × Nat => decide (∀ y ∈ m :: x :: xs, z.1 ≤ y.1))
          m (x :: xs) (by
            simp only [decide_eq_false_iff_not]
            intro hall
            refine hub fun y hy => hall y ?_
            rcases List.mem_cons.mp hy with h1 | h1
            · simp [h1]
            · simp [h1])]
        rw [find?_cons_neg (fun z : Int × Nat => decide (∀ y ∈ m :: x :: xs, z.1 ≤ y.1))
          x xs (by
            simp only [decide_eq_false_iff_not]
            intro hall
            have hmx : x.1 ≤ m.1 := hall m (by simp)
            refine hub fun y hy => ?_
            rcases List.mem_cons.mp hy with h1 | h1
            · rw [h1]
            · have := hall y (by simp [h1])
              omega)]
        have hfun : (fun z : Int × Nat => decide (∀ y ∈ m :: xs, z.1 ≤ y.1)) =
            (fun z : Int × Nat => decide (∀ y ∈ m :: x :: xs, z.1 ≤ y.1)) := by
          funext z
          rw [decide_eq_decide]
          constructor
          · intro hz y hy
            have hm1 : z.1 ≤ m.1 := hz m (by simp)
            rcases List.mem_cons.mp hy with h1 | h1
            · rw [h1]; exact hm1
            · rcases List.mem_cons.mp h1 with h3 | h3
              · rw [h3]; omega
              · exact hz y (by simp [h3])
          · intro hz y hy
            rcases List.mem_cons.mp hy with h1 | h1
            · rw [h1]
              exact hz m (by simp)
            · exact hz y (by simp [h1])
        rw [hfun]

/-- Claim C8: on the empty sequence `max()` and `min()` return the none
sentinel; on a non-empty sequence (elements carry a value ordered by
the language's `>` / `<` plus an identity tag the comparison cannot
see), `max()` returns the first element whose value is an upper bound
of the whole sequence — the first occurrence of the maximum — and
`min()` the first occurrence of the minimum: a later element with an
equal extreme value never replaces the retained one, because the
comparisons are strict. -/
theorem max_min_first_occurrence :
    (maxI gtFst [] = none ∧ minI ltFst [] = none) ∧
    ∀ l : List (Int × Nat), l ≠ [] →
      maxI gtFst l = l.find? (fun z => decide (∀ y ∈ l, y.1 ≤ z.1)) ∧
      minI ltFst l = l.find? (fun z => decide (∀ y ∈ l, z.1 ≤ y.1)) := by
  refine ⟨⟨rfl, rfl⟩, ?_⟩
  intro l hl
  match l with
  | x :: xs => exact ⟨maxLoop_find? xs x, minLoop_find? xs x⟩

/-- Witness for `max_min_first_occurrence` on
`[(1,0), (2,1), (2,2), (1,3)]` (value, tag): the maximum value 2 occurs
at tags 1 and 2 and `max()` keeps the first occurrence `(2,1)`; the
minimum value 1 occurs at tags 0 and 3 and `min()` keeps `(1,0)`. -/
theorem max_min_first_occurrence_witness :
    maxI gtFst [(1, 0), (2, 1), (2, 2), (1, 3)] = some (2, 1) ∧
    minI ltFst [(1, 0), (2, 1), (2, 2), (1, 3)] = some (1, 0) := by
  have h := max_min_first_occurrence.2 [(1, 0), (2, 1), (2, 2), (1, 3)] (by decide)
  exact ⟨by rw [h.1]; decide, by rw [h.2]; decide⟩

end Ferrocore
